import Mathlib

/-!
Shallow embedding of the market-breadth analytics core of `run.py`
(breadth calculation, crossover detection, history merge, crossover log,
backfill date alignment), together with theorems settling the frozen
claims about it.

Prices are modelled as `Option ℚ` (missing values are `none`, mirroring
pandas `NaN`); Python `round(x, 2)` is modelled as round-half-to-even at
two decimals over `ℚ`.
-/

namespace MarketBreadth

section

attribute [local semireducible] Rat.add Rat.mul Rat.inv Rat.sub

/-- Round a rational to the nearest integer, ties to even
(the rounding used by Python's builtin `round`). -/
def roundHalfEvenInt (q : ℚ) : ℤ :=
  if q - (⌊q⌋ : ℚ) < 1/2 then ⌊q⌋
  else if 1/2 < q - (⌊q⌋ : ℚ) then ⌊q⌋ + 1
  else if ⌊q⌋ % 2 = 0 then ⌊q⌋ else ⌊q⌋ + 1

/-- Python `round(q, 2)`: round to two decimal places, ties to even. -/
def round2 (q : ℚ) : ℚ :=
  (roundHalfEvenInt (q * 100) : ℚ) / 100

/-- A price panel: dates (row labels), one column per ticker, and rows of
optional closing prices aligned with `tickers` (a missing price is `none`,
as pandas `NaN`).  Mirrors the `price_data` DataFrame of `run.py`. -/
structure Panel where
  tickers : List String
  dates : List ℤ
  rows : List (List (Option ℚ))

/-- Trailing simple moving average at the last element of a column:
pandas `col.rolling(window=w).mean().iloc[-1]` with default
`min_periods = w`, which is `none` unless the column has at least `w`
entries and the last `w` entries are all present. -/
def smaAt (col : List (Option ℚ)) (w : ℕ) : Option ℚ :=
  if col.length < w then none
  else
    let win := col.drop (col.length - w)
    if win.all Option.isSome then
      some ((win.map (fun o => o.getD 0)).sum / (w : ℚ))
    else none

/-- Column `j` of the slice `price_data.iloc[:idx+1]`. -/
def colAt (p : Panel) (idx j : ℕ) : List (Option ℚ) :=
  (p.rows.take (idx + 1)).map (fun r => r.getD j none)

/-- The last row of `price_data.iloc[:idx+1]`
(`historical_slice.iloc[-1]`, the `current_prices` of `run.py`). -/
def lastRow (p : Panel) (idx : ℕ) : List (Option ℚ) :=
  ((p.rows.take (idx + 1)).getLast?).getD []

/-- Close of ticker column `j` in the `current_prices` row. -/
def closeAt (p : Panel) (idx j : ℕ) : Option ℚ :=
  (lastRow p idx).getD j none

/-- One entry of the boolean series `current_prices > sma_w`:
true iff both the close and the SMA are present and the close is strictly
greater (pandas comparisons with `NaN` yield `False`). -/
def aboveB (p : Panel) (idx w j : ℕ) : Bool :=
  match closeAt p idx j, smaAt (colAt p idx j) w with
  | some c, some m => decide (m < c)
  | _, _ => false

/-- Number of tickers with a non-missing close in the `current_prices`
row: `len(current_prices.dropna())`. -/
def totalValid (p : Panel) (idx : ℕ) : ℕ :=
  (List.range p.tickers.length).countP (fun j => (closeAt p idx j).isSome)

/-- The count `above_w.sum()`. -/
def aboveCount (p : Panel) (idx w : ℕ) : ℕ :=
  (List.range p.tickers.length).countP (fun j => aboveB p idx w j)

/-- The breadth record returned by `calculate_metrics_for_date`. -/
structure Metrics where
  total : ℕ
  above_50 : ℕ
  above_100 : ℕ
  above_200 : ℕ
  pct_above_50 : ℚ
  pct_above_100 : ℚ
  pct_above_200 : ℚ
deriving DecidableEq, Repr

/-- Percentage field: `round(float(above/total)*100, 2)`. -/
def pctOf (above total : ℕ) : ℚ :=
  round2 ((above : ℚ) / (total : ℚ) * 100)

/-- Embedding of `calculate_metrics_for_date(price_data, date_idx)` from
`run.py`: slice to rows `0..idx`, reject if fewer than 200 rows, compute
the three SMA comparisons, reject if no ticker has a valid close,
otherwise return the metrics record (`None` is `none`). -/
def calculate_metrics_for_date (p : Panel) (idx : ℕ) : Option Metrics :=
  if (p.rows.take (idx + 1)).length < 200 then none
  else if totalValid p idx = 0 then none
  else some
    { total := totalValid p idx
      above_50 := aboveCount p idx 50
      above_100 := aboveCount p idx 100
      above_200 := aboveCount p idx 200
      pct_above_50 := pctOf (aboveCount p idx 50) (totalValid p idx)
      pct_above_100 := pctOf (aboveCount p idx 100) (totalValid p idx)
      pct_above_200 := pctOf (aboveCount p idx 200) (totalValid p idx) }

/-- Spec-side reading of a close "at row idx": entry `j` of row `idx`. -/
def specCloseAt (p : Panel) (idx j : ℕ) : Option ℚ :=
  (p.rows.getD idx []).getD j none

/-- Spec-side trailing closes: the last `w` closes of column `j` ending at
row `idx` inclusive. -/
def specTrailing (p : Panel) (idx w j : ℕ) : List (Option ℚ) :=
  ((p.rows.take (idx + 1)).drop (idx + 1 - w)).map (fun r => r.getD j none)

/-- Spec-side "above" test, following the claim's words: the ticker's
close at `idx` is strictly greater than the arithmetic mean of its
trailing `w` closes ending at `idx`; a tie or any missing value does not
count as above. -/
def specAboveB (p : Panel) (idx w j : ℕ) : Bool :=
  match specCloseAt p idx j with
  | some c =>
      let t := specTrailing p idx w j
      t.all Option.isSome &&
        decide ((t.map (fun o => o.getD 0)).sum / (w : ℚ) < c)
  | none => false

/-- Spec-side count of tickers above their `w`-SMA at row `idx`. -/
def specAboveCount (p : Panel) (idx w : ℕ) : ℕ :=
  (List.range p.tickers.length).countP (fun j => specAboveB p idx w j)

/-- Spec-side count of tickers with a non-missing close at row `idx`. -/
def specTotal (p : Panel) (idx : ℕ) : ℕ :=
  (List.range p.tickers.length).countP (fun j => (specCloseAt p idx j).isSome)

/-! Crossover detection (`detect_crossovers` in `run.py`).

Row indices are integers, with Python `iloc` semantics: negative indices
wrap from the end, and an out-of-range access raises.  An uncaught Python
exception is modelled by an overall result of `none`. -/

/-- A crossover event: ticker, close and SMA value rounded to 2 decimals. -/
structure CrossEvent where
  ticker : String
  close : ℚ
  sma_value : ℚ
deriving DecidableEq, Repr

/-- The bullish/bearish buckets for one SMA window. -/
structure Buckets where
  bullish : List CrossEvent
  bearish : List CrossEvent
deriving DecidableEq, Repr

/-- Both buckets empty. -/
def emptyBuckets : Buckets := { bullish := [], bearish := [] }

/-- Python slice `l[:k]` (`iloc[:k]`): for negative `k`, all but the last
`-k` elements (empty when `len + k ≤ 0`). -/
def ilocSlice {α : Type} (l : List α) (k : ℤ) : List α :=
  if 0 ≤ k then l.take k.toNat else l.take ((l.length : ℤ) + k).toNat

/-- Python positional row access `l.iloc[i]`: negative indices wrap from
the end; out of range is `none` (an `IndexError` in Python). -/
def ilocGet {α : Type} (l : List α) (i : ℤ) : Option α :=
  if 0 ≤ i then l.get? i.toNat
  else if 0 ≤ (l.length : ℤ) + i then l.get? ((l.length : ℤ) + i).toNat
  else none

/-- The last row of `s.rolling(window=w).mean()`, one entry per ticker
column; `none` when `s` is empty (`.iloc[-1]` raises on an empty frame). -/
def rollingLastRow (s : List (List (Option ℚ))) (w : ℕ) (numCols : ℕ) :
    Option (List (Option ℚ)) :=
  if s.isEmpty then none
  else some ((List.range numCols).map
    (fun j => smaAt (s.map (fun r => r.getD j none)) w))

/-- Per-ticker classification: the `was_below/now_above` ladder of
`run.py`; any missing value skips the ticker. -/
inductive Signal
  | bull
  | bear
  | skip
deriving DecidableEq

/-- Classify one ticker from its previous/current price and SMA. -/
def classify (pp pc sp sc : Option ℚ) : Signal :=
  match pp, pc, sp, sc with
  | some pp, some pc, some sp, some sc =>
      if pp < sp ∧ sc < pc then Signal.bull
      else if sp < pp ∧ pc < sc then Signal.bear
      else Signal.skip
  | _, _, _, _ => Signal.skip

/-- The event appended for column `j` (close and SMA rounded to 2 decimals). -/
def eventAt (tickers : List String) (priceCurr smaCurr : List (Option ℚ)) (j : ℕ) :
    CrossEvent :=
  { ticker := tickers.getD j ""
    close := round2 ((priceCurr.getD j none).getD 0)
    sma_value := round2 ((smaCurr.getD j none).getD 0) }

/-- The per-window ticker loop of `detect_crossovers`: every column is
visited in order and contributes to at most one bucket. -/
def bucketsFor (tickers : List String)
    (pricePrev priceCurr smaPrev smaCurr : List (Option ℚ)) : Buckets :=
  { bullish := (List.range tickers.length).filterMap (fun j =>
      if classify (pricePrev.getD j none) (priceCurr.getD j none)
          (smaPrev.getD j none) (smaCurr.getD j none) = Signal.bull
      then some (eventAt tickers priceCurr smaCurr j) else none)
    bearish := (List.range tickers.length).filterMap (fun j =>
      if classify (pricePrev.getD j none) (priceCurr.getD j none)
          (smaPrev.getD j none) (smaCurr.getD j none) = Signal.bear
      then some (eventAt tickers priceCurr smaCurr j) else none) }

/-- One period of the `for period in sma_periods` loop: empty buckets when
the panel has fewer rows than the window, otherwise the two SMA rows, the
two price rows and the ticker loop; `none` is an uncaught exception. -/
def detectPeriod (p : Panel) (prev curr : ℤ) (w : ℕ) : Option Buckets :=
  if p.rows.length < w then some emptyBuckets
  else
    match rollingLastRow (ilocSlice p.rows (prev + 1)) w p.tickers.length,
        rollingLastRow (ilocSlice p.rows (curr + 1)) w p.tickers.length,
        ilocGet p.rows prev, ilocGet p.rows curr with
    | some smaPrev, some smaCurr, some pricePrev, some priceCurr =>
        some (bucketsFor p.tickers pricePrev priceCurr smaPrev smaCurr)
    | _, _, _, _ => none

/-- Embedding of `detect_crossovers(price_data, prev_date_idx,
curr_date_idx, sma_periods)`: the guard returns all-empty buckets when
`prev_date_idx < 0` or `curr_date_idx >= len(price_data)`; otherwise each
requested period is processed in order. -/
def detect_crossovers (p : Panel) (prev curr : ℤ)
    (periods : List ℕ := [50, 100, 200]) : Option (List (ℕ × Buckets)) :=
  if prev < 0 ∨ (p.rows.length : ℤ) ≤ curr then
    some (periods.map (fun w => (w, emptyBuckets)))
  else
    periods.mapM (fun w => (detectPeriod p prev curr w).map (fun b => (w, b)))

/-- Bullish condition on four optional values: previous close strictly
below previous SMA and current close strictly above current SMA, all four
present. -/
def bullCondB (pp pc sp sc : Option ℚ) : Bool :=
  match pp, pc, sp, sc with
  | some a, some b, some c, some d => decide (a < c) && decide (d < b)
  | _, _, _, _ => false

/-- Bearish condition: strictly above then strictly below, all four
present. -/
def bearCondB (pp pc sp sc : Option ℚ) : Bool :=
  match pp, pc, sp, sc with
  | some a, some b, some c, some d => decide (c < a) && decide (b < d)
  | _, _, _, _ => false

/-- Spec-side bullish test for one ticker column, following the claim:
price strictly below the trailing `w`-SMA on the previous day and strictly
above it on the current day, all four values present. -/
def specBullB (p : Panel) (iprev icurr w j : ℕ) : Bool :=
  bullCondB (specCloseAt p iprev j) (specCloseAt p icurr j)
    (smaAt (colAt p iprev j) w) (smaAt (colAt p icurr j) w)

/-- Spec-side bearish test: strictly above then strictly below. -/
def specBearB (p : Panel) (iprev icurr w j : ℕ) : Bool :=
  bearCondB (specCloseAt p iprev j) (specCloseAt p icurr j)
    (smaAt (colAt p iprev j) w) (smaAt (colAt p icurr j) w)

/-- Spec-side event for column `j` on the current day. -/
def specEventAt (p : Panel) (icurr w j : ℕ) : CrossEvent :=
  { ticker := p.tickers.getD j ""
    close := round2 ((specCloseAt p icurr j).getD 0)
    sma_value := round2 ((smaAt (colAt p icurr j) w).getD 0) }

/-- Spec-side buckets for a window: exactly the tickers passing the
bullish (resp. bearish) test, in panel column order. -/
def specBuckets (p : Panel) (iprev icurr w : ℕ) : Buckets :=
  { bullish := (List.range p.tickers.length).filterMap (fun j =>
      if specBullB p iprev icurr w j then some (specEventAt p icurr w j) else none)
    bearish := (List.range p.tickers.length).filterMap (fun j =>
      if specBearB p iprev icurr w j then some (specEventAt p icurr w j) else none) }

/-! Concrete sample inputs used by witnesses. -/

/-- A concrete panel: one ticker, 200 rows, every close present and equal to 1. -/
def samplePanel : Panel :=
  { tickers := ["AAA"]
    dates := (List.range 200).map (fun i => (i : ℤ) + 1)
    rows := List.replicate 200 [some (1 : ℚ)] }

/-- The metrics record that `calculate_metrics_for_date samplePanel 199` produces. -/
def sampleMetrics : Metrics :=
  { total := 1, above_50 := 0, above_100 := 0, above_200 := 0
    pct_above_50 := 0, pct_above_100 := 0, pct_above_200 := 0 }

/-- A concrete 51-row panel with one ticker: closes are 100 for rows 0-48,
200 at row 49 and 1 at row 50. -/
def crossPanel : Panel :=
  { tickers := ["AAA"]
    dates := (List.range 51).map (fun i => (i : ℤ))
    rows := List.replicate 49 [some (100 : ℚ)] ++ [[some 200], [some 1]] }


/-! History persistence (`update_history_file` in `run.py`). -/

/-- One row of the breadth history table: a date string (ISO
`YYYY-MM-DD`) plus the metrics of both universes. -/
structure HRow where
  date : String
  sp500 : Metrics
  nasdaq : Metrics
deriving DecidableEq, Repr

/-- Pandas `drop_duplicates(subset=['date'], keep='last')`: for each date
only its last occurrence survives, in its original position. -/
def dedupLast : List HRow → List HRow
  | [] => []
  | r :: rs =>
      if rs.any (fun x => x.date = r.date) then dedupLast rs
      else r :: dedupLast rs

/-- Pandas `sort_values('date')` on string dates: ascending lexicographic
order (chronological for ISO dates). -/
def sortByDate (l : List HRow) : List HRow :=
  l.mergeSort (fun a b => a.date ≤ b.date)

/-- The merge core of `update_history_file`:
`pd.concat([df, new_df]).drop_duplicates(subset=['date'], keep='last')`
followed by `sort_values('date')`. -/
def mergeRecords (existing new : List HRow) : List HRow :=
  sortByDate (dedupLast (existing ++ new))

/-- State of the persisted history CSV: absent, present but unparseable,
or a parsed table. -/
inductive Stored
  | absent
  | corrupt
  | table (t : List HRow)
deriving DecidableEq

/-- Embedding of `update_history_file(new_records)`.  The whole body is
wrapped in `try/except`; `pd.read_csv` on an unparseable file raises
inside the `try`, the handler prints and returns an empty DataFrame, and
nothing is written (the file is reached before `to_csv`), so the stored
state is unchanged.  The `Except` component records whether a Python
exception propagates to the caller: because of the catch-all handler it
is always `Except.ok`. -/
def update_history_file : Stored → List HRow → Except String (List HRow) × Stored
  | Stored.corrupt, _ => (Except.ok [], Stored.corrupt)
  | Stored.absent, new =>
      (Except.ok (mergeRecords [] new), Stored.table (mergeRecords [] new))
  | Stored.table t, new =>
      (Except.ok (mergeRecords t new), Stored.table (mergeRecords t new))

/-- The last record carrying a given date, if any (later rows win, the
`keep='last'` key function). -/
def lookupLast : List HRow → String → Option HRow
  | [], _ => none
  | r :: rs, d =>
      match lookupLast rs d with
      | some x => some x
      | none => if r.date = d then some r else none

/-! Crossover log (`save_crossover_history` in `run.py`). -/

/-- The value stored under one date key of `crossover_history.json`:
the crossover results of both universes.  (The JSON layer stringifies the
integer window keys; that serialization detail is omitted.) -/
structure CrossEntry where
  sp500 : List (ℕ × Buckets)
  nasdaq : List (ℕ × Buckets)
deriving DecidableEq

/-- State of the persisted crossover log. -/
inductive CrossStored
  | absent
  | corrupt
  | log (entries : List (String × CrossEntry))

/-- The load step of `save_crossover_history`: an absent file and a parse
failure (caught by `except`) both yield the empty log. -/
def loadCrossoverLog : CrossStored → List (String × CrossEntry)
  | CrossStored.absent => []
  | CrossStored.corrupt => []
  | CrossStored.log h => h

/-- Python dict assignment `history[date_str] = entry`: replaces the
value in place when the key exists, otherwise appends the new key. -/
def setKey (log : List (String × CrossEntry)) (d : String) (e : CrossEntry) :
    List (String × CrossEntry) :=
  if log.any (fun x => x.1 = d) then
    log.map (fun x => if x.1 = d then (d, e) else x)
  else log ++ [(d, e)]

/-- Dict key lookup. -/
def lookupKey (log : List (String × CrossEntry)) (d : String) : Option CrossEntry :=
  (log.find? (fun x => x.1 = d)).map Prod.snd

/-- Embedding of `save_crossover_history(crossovers_sp500,
crossovers_nasdaq, date_str)`: load (or start empty), set the date key,
persist and return the entry just written. -/
def save_crossover_history (prior : CrossStored) (sp nas : List (ℕ × Buckets))
    (d : String) : List (String × CrossEntry) × CrossEntry :=
  let history := loadCrossoverLog prior
  let entry : CrossEntry := { sp500 := sp, nasdaq := nas }
  (setKey history d entry, entry)

/-! Backfill day alignment (the backfill loop of `main` in `run.py`). -/

/-- Index of the date nearest to `d`
(`index.get_indexer([d], method='nearest')[0]`); `none` on an empty index
(where pandas raises and the surrounding `except` skips the day).  Ties
keep the earlier index; the concrete instances below are tie-free, so the
pandas tie-breaking rule is immaterial to the theorems. -/
def nearestIdx (dates : List ℤ) (d : ℤ) : Option ℕ :=
  (List.range dates.length).foldl
    (fun acc i =>
      match acc with
      | none => some i
      | some j => if |dates.getD i 0 - d| < |dates.getD j 0 - d| then some i else some j)
    none

/-- One business day `d` of the backfill loop: locate the nearest row in
each universe's panel (raising — skipping the day — when a panel is
empty), skip when the S&P 500 nearest row is more than 3 calendar days
away (the Nasdaq distance is not checked by the code), otherwise compute
both metrics and emit a merged record when both succeed.  `ds` is the
formatted date string for the record. -/
def backfillDay (sp nas : Panel) (d : ℤ) (ds : String) : Option HRow :=
  match nearestIdx sp.dates d, nearestIdx nas.dates d with
  | some spIdx, some nasIdx =>
      if 3 < |sp.dates.getD spIdx 0 - d| then none
      else
        match calculate_metrics_for_date sp spIdx,
            calculate_metrics_for_date nas nasIdx with
        | some m1, some m2 => some { date := ds, sp500 := m1, nasdaq := m2 }
        | _, _ => none
  | _, _ => none

/-- A concrete history row. -/
def sampleHRow : HRow :=
  { date := "2024-01-02", sp500 := sampleMetrics, nasdaq := sampleMetrics }

/-- A concrete crossover-log entry. -/
def sampleEntry : CrossEntry :=
  { sp500 := [(50, emptyBuckets)], nasdaq := [(50, emptyBuckets)] }

/-- A 200-row panel whose dates (-300 to -101) all lie far from day 200. -/
def nasPanelFar : Panel :=
  { tickers := ["BBB"]
    dates := (List.range 200).map (fun i => (i : ℤ) - 300)
    rows := List.replicate 200 [some (1 : ℚ)] }

/-- A one-row panel whose single date (10) is more than 3 days from day 0. -/
def gapPanel : Panel :=
  { tickers := ["AAA"], dates := [10], rows := [[some (1 : ℚ)]] }

/-! Supporting lemmas. -/

theorem roundHalfEvenInt_nonneg {q : ℚ} (h : 0 ≤ q) : 0 ≤ roundHalfEvenInt q := by
  have hf : (0 : ℤ) ≤ ⌊q⌋ := Int.floor_nonneg.mpr h
  unfold roundHalfEvenInt
  split_ifs <;> omega

theorem roundHalfEvenInt_le_ceil (q : ℚ) : roundHalfEvenInt q ≤ ⌈q⌉ := by
  have h1 : ⌊q⌋ ≤ ⌈q⌉ := Int.floor_le_ceil q
  have hfl : (⌊q⌋ : ℚ) ≤ q := Int.floor_le q
  unfold roundHalfEvenInt
  split_ifs with ha hb hc
  · exact h1
  · have hlt : (⌊q⌋ : ℚ) < q := by linarith
    have := Int.lt_ceil.mpr hlt
    omega
  · exact h1
  · push_neg at ha
    have hlt : (⌊q⌋ : ℚ) < q := by linarith
    have := Int.lt_ceil.mpr hlt
    omega

theorem round2_nonneg {q : ℚ} (h : 0 ≤ q) : 0 ≤ round2 q := by
  unfold round2
  have h1 : (0 : ℤ) ≤ roundHalfEvenInt (q * 100) := roundHalfEvenInt_nonneg (by linarith)
  have h2 : (0 : ℚ) ≤ (roundHalfEvenInt (q * 100) : ℚ) := by exact_mod_cast h1
  positivity

theorem round2_le_100 {q : ℚ} (h : q ≤ 100) : round2 q ≤ 100 := by
  have h1 : roundHalfEvenInt (q * 100) ≤ ⌈q * 100⌉ := roundHalfEvenInt_le_ceil _
  have h2 : ⌈q * 100⌉ ≤ (10000 : ℤ) := Int.ceil_le.mpr (by push_cast; linarith)
  have h3 : (roundHalfEvenInt (q * 100) : ℚ) ≤ 10000 := by exact_mod_cast le_trans h1 h2
  unfold round2
  rw [div_le_iff₀ (by norm_num : (0:ℚ) < 100)]
  linarith

theorem pctOf_nonneg (a t : ℕ) : 0 ≤ pctOf a t := by
  apply round2_nonneg
  positivity

theorem pctOf_le_100 {a t : ℕ} (h : a ≤ t) : pctOf a t ≤ 100 := by
  apply round2_le_100
  rcases Nat.eq_zero_or_pos t with ht | ht
  · subst ht
    simp
  · have h0 : (0 : ℚ) < (t : ℚ) := by exact_mod_cast ht
    have h1 : (a : ℚ) / (t : ℚ) ≤ 1 := by
      rw [div_le_one h0]
      exact_mod_cast h
    linarith

theorem aboveCount_le_totalValid (p : Panel) (idx w : ℕ) :
    aboveCount p idx w ≤ totalValid p idx := by
  apply List.countP_mono_left
  intro j _ hab
  revert hab
  unfold aboveB
  cases hc : closeAt p idx j <;> cases hs : smaAt (colAt p idx j) w <;> simp

theorem take_succ_length_eq {α : Type} (l : List α) (idx : ℕ) (h : idx < l.length) :
    (l.take (idx + 1)).length = idx + 1 := by
  simp only [List.length_take]
  omega

theorem lastRow_eq_getD (p : Panel) (idx : ℕ) (h : idx < p.rows.length) :
    lastRow p idx = p.rows.getD idx [] := by
  unfold lastRow
  rw [List.take_succ]
  have hx : p.rows[idx]? = some (p.rows.getD idx []) := by
    rw [List.getElem?_eq_getElem h]
    simp [List.getD_eq_getElem?_getD, List.getElem?_eq_getElem h]
  rw [hx]
  simp [List.getLast?_concat]

theorem colAt_length (p : Panel) (idx j : ℕ) (h : idx < p.rows.length) :
    (colAt p idx j).length = idx + 1 := by
  simp only [colAt, List.length_map, List.length_take]
  omega

theorem aboveB_eq_specAboveB (p : Panel) (idx w j : ℕ) (h : idx < p.rows.length)
    (hw : w ≤ idx + 1) : aboveB p idx w j = specAboveB p idx w j := by
  have hcl : closeAt p idx j = specCloseAt p idx j := by
    unfold closeAt specCloseAt
    rw [lastRow_eq_getD p idx h]
  have hlen : (colAt p idx j).length = idx + 1 := colAt_length p idx j h
  have hwin : (colAt p idx j).drop ((colAt p idx j).length - w) = specTrailing p idx w j := by
    rw [hlen]
    unfold colAt specTrailing
    rw [List.map_drop]
  have hnlt : ¬ ((colAt p idx j).length < w) := by omega
  unfold aboveB specAboveB smaAt
  rw [hcl, hwin, if_neg hnlt]
  cases hc : specCloseAt p idx j with
  | none =>
      by_cases hall : (specTrailing p idx w j).all Option.isSome <;> simp [hall]
  | some c =>
      by_cases hall : (specTrailing p idx w j).all Option.isSome <;> simp [hall]

theorem filterMap_congr_mem {α β : Type} {f g : α → Option β} {l : List α}
    (h : ∀ a ∈ l, f a = g a) : l.filterMap f = l.filterMap g := by
  induction l with
  | nil => rfl
  | cons a l ih =>
      simp only [List.filterMap_cons, h a (List.mem_cons_self a l)]
      rw [ih (fun b hb => h b (List.mem_cons_of_mem a hb))]

theorem getD_range_map {β : Type} (n j : ℕ) (f : ℕ → β) (d : β) (h : j < n) :
    ((List.range n).map f).getD j d = f j := by
  rw [List.getD_eq_getElem?_getD, List.getElem?_map, List.getElem?_range h]
  rfl

theorem bullCondB_of_sp_none (pp pc sc : Option ℚ) :
    bullCondB pp pc none sc = false := by
  unfold bullCondB
  cases pp <;> cases pc <;> cases sc <;> rfl

theorem bearCondB_of_sp_none (pp pc sc : Option ℚ) :
    bearCondB pp pc none sc = false := by
  unfold bearCondB
  cases pp <;> cases pc <;> cases sc <;> rfl

theorem specBullB_of_smaPrev_none (p : Panel) (iprev icurr w j : ℕ)
    (hs : smaAt (colAt p iprev j) w = none) : specBullB p iprev icurr w j = false := by
  unfold specBullB
  rw [hs, bullCondB_of_sp_none]

theorem specBearB_of_smaPrev_none (p : Panel) (iprev icurr w j : ℕ)
    (hs : smaAt (colAt p iprev j) w = none) : specBearB p iprev icurr w j = false := by
  unfold specBearB
  rw [hs, bearCondB_of_sp_none]

theorem classify_eq_bull_iff (pp pc sp sc : Option ℚ) :
    classify pp pc sp sc = Signal.bull ↔ bullCondB pp pc sp sc = true := by
  cases pp <;> cases pc <;> cases sp <;> cases sc <;>
      simp only [classify, bullCondB] <;> try simp
  split_ifs with h1 h2 <;> simp [h1]

theorem classify_eq_bear_iff (pp pc sp sc : Option ℚ) :
    classify pp pc sp sc = Signal.bear ↔ bearCondB pp pc sp sc = true := by
  cases pp <;> cases pc <;> cases sp <;> cases sc <;>
      simp only [classify, bearCondB] <;> try simp
  rename_i a b c d
  split_ifs with h1 h2
  · refine iff_of_false (by simp) ?_
    simp only [Bool.and_eq_true, decide_eq_true_eq, not_and]
    intro h3
    exact absurd h1.1 (lt_asymm h3)
  · simp [h2]
  · simp [h2]

theorem smaAt_of_short (col : List (Option ℚ)) (w : ℕ) (h : col.length < w) :
    smaAt col w = none := by
  unfold smaAt
  rw [if_pos h]

theorem specBuckets_empty_of_short (p : Panel) (iprev icurr w : ℕ)
    (hw : p.rows.length < w) : specBuckets p iprev icurr w = emptyBuckets := by
  have hs : ∀ j, smaAt (colAt p iprev j) w = none := by
    intro j
    apply smaAt_of_short
    simp only [colAt, List.length_map, List.length_take]
    omega
  unfold specBuckets emptyBuckets
  refine congrArg₂ Buckets.mk ?_ ?_ <;>
    rw [List.filterMap_eq_nil_iff] <;> intro j _
  · simp [specBullB_of_smaPrev_none p iprev icurr w j (hs j)]
  · simp [specBearB_of_smaPrev_none p iprev icurr w j (hs j)]

theorem detectPeriod_eq_spec (p : Panel) (iprev icurr : ℕ) (w : ℕ) (hw : 0 < w)
    (hlt : iprev < icurr) (hcurr : icurr < p.rows.length) :
    detectPeriod p (iprev : ℤ) (icurr : ℤ) w =
      some (specBuckets p iprev icurr w) := by
  unfold detectPeriod
  by_cases hshort : p.rows.length < w
  · rw [if_pos hshort, specBuckets_empty_of_short p iprev icurr w hshort]
  · rw [if_neg hshort]
    have hip : iprev < p.rows.length := by omega
    obtain ⟨rowPrev, hrowPrev⟩ : ∃ r, p.rows.get? iprev = some r :=
      ⟨p.rows.get ⟨iprev, hip⟩, List.get?_eq_get hip⟩
    obtain ⟨rowCurr, hrowCurr⟩ : ∃ r, p.rows.get? icurr = some r :=
      ⟨p.rows.get ⟨icurr, hcurr⟩, List.get?_eq_get hcurr⟩
    have hslicePrev : ilocSlice p.rows ((iprev : ℤ) + 1) = p.rows.take (iprev + 1) := by
      unfold ilocSlice
      rw [if_pos (by omega)]
      norm_num
    have hsliceCurr : ilocSlice p.rows ((icurr : ℤ) + 1) = p.rows.take (icurr + 1) := by
      unfold ilocSlice
      rw [if_pos (by omega)]
      norm_num
    have hgetPrev : ilocGet p.rows (iprev : ℤ) = some rowPrev := by
      unfold ilocGet
      rw [if_pos (by omega)]
      simpa using hrowPrev
    have hgetCurr : ilocGet p.rows (icurr : ℤ) = some rowCurr := by
      unfold ilocGet
      rw [if_pos (by omega)]
      simpa using hrowCurr
    have hne : ∀ i : ℕ, i < p.rows.length → (p.rows.take (i + 1)).isEmpty = false := by
      intro i hi
      rw [List.isEmpty_eq_false]
      intro hnil
      have := congrArg List.length hnil
      simp only [List.length_take, List.length_nil] at this
      omega
    have hrollPrev : rollingLastRow (p.rows.take (iprev + 1)) w p.tickers.length =
        some ((List.range p.tickers.length).map (fun j => smaAt (colAt p iprev j) w)) := by
      unfold rollingLastRow
      rw [hne iprev hip]
      rfl
    have hrollCurr : rollingLastRow (p.rows.take (icurr + 1)) w p.tickers.length =
        some ((List.range p.tickers.length).map (fun j => smaAt (colAt p icurr j) w)) := by
      unfold rollingLastRow
      rw [hne icurr hcurr]
      rfl
    have hPrevRow : p.rows.getD iprev [] = rowPrev := by
      rw [List.getD_eq_getElem?_getD, ← List.get?_eq_getElem?, hrowPrev]
      rfl
    have hCurrRow : p.rows.getD icurr [] = rowCurr := by
      rw [List.getD_eq_getElem?_getD, ← List.get?_eq_getElem?, hrowCurr]
      rfl
    rw [hslicePrev, hsliceCurr, hrollPrev, hrollCurr, hgetPrev, hgetCurr]
    refine congrArg some ?_
    unfold bucketsFor specBuckets
    refine congrArg₂ Buckets.mk (filterMap_congr_mem ?_) (filterMap_congr_mem ?_)
    · intro j hj
      obtain hjn := List.mem_range.mp hj
      rw [getD_range_map _ _ _ _ hjn, getD_range_map _ _ _ _ hjn]
      refine if_congr ?_ ?_ rfl
      · rw [classify_eq_bull_iff]
        unfold specBullB specCloseAt
        rw [hPrevRow, hCurrRow]
      · unfold eventAt specEventAt specCloseAt
        rw [hCurrRow, getD_range_map _ _ _ _ hjn]
    · intro j hj
      obtain hjn := List.mem_range.mp hj
      rw [getD_range_map _ _ _ _ hjn, getD_range_map _ _ _ _ hjn]
      refine if_congr ?_ ?_ rfl
      · rw [classify_eq_bear_iff]
        unfold specBearB specCloseAt
        rw [hPrevRow, hCurrRow]
      · unfold eventAt specEventAt specCloseAt
        rw [hCurrRow, getD_range_map _ _ _ _ hjn]

/-- If the panel is too short for a window, the spec-side buckets match
the code path trivially; packaged into the full detector equality for the
standard window list. -/
theorem detect_eq_spec (p : Panel) (iprev icurr : ℕ)
    (hlt : iprev < icurr) (hcurr : icurr < p.rows.length) :
    detect_crossovers p (iprev : ℤ) (icurr : ℤ) [50, 100, 200] =
      some ([50, 100, 200].map (fun w => (w, specBuckets p iprev icurr w))) := by
  unfold detect_crossovers
  rw [if_neg (by push_neg; omega)]
  simp only [List.mapM_cons, List.mapM_nil,
    detectPeriod_eq_spec p iprev icurr 50 (by norm_num) hlt hcurr,
    detectPeriod_eq_spec p iprev icurr 100 (by norm_num) hlt hcurr,
    detectPeriod_eq_spec p iprev icurr 200 (by norm_num) hlt hcurr]
  rfl

/-! Claims C2 and C9. -/

/-- C2: for every panel and valid row index `idx`,
`calculate_metrics_for_date` returns `none` (a rejected result) if and
only if fewer than 200 rows exist up to and including `idx`, or zero
tickers have a non-missing close at `idx`. -/
theorem C2_rejection_iff (p : Panel) (idx : ℕ) (h : idx < p.rows.length) :
    calculate_metrics_for_date p idx = none ↔
      (idx + 1 < 200 ∨ totalValid p idx = 0) := by
  have hlen : (p.rows.take (idx + 1)).length = idx + 1 := take_succ_length_eq _ _ h
  unfold calculate_metrics_for_date
  rw [hlen]
  by_cases h1 : idx + 1 < 200
  · simp [h1]
  · by_cases h2 : totalValid p idx = 0 <;> simp [h1, h2]

set_option maxRecDepth 400000 in
/-- Witness for C2: a panel with exactly 200 rows and a valid close at the
last row, where the biconditional concretely shows acceptance. -/
theorem C2_rejection_iff_witness :
    199 < samplePanel.rows.length ∧
      (calculate_metrics_for_date samplePanel 199 = none ↔
        (199 + 1 < 200 ∨ totalValid samplePanel 199 = 0)) :=
  ⟨by decide, C2_rejection_iff samplePanel 199 (by decide)⟩

/-- C9: every non-rejected breadth record satisfies, for each window
`N ∈ {50, 100, 200}`, `above_N ≤ total` and `0 ≤ pct_above_N ≤ 100`. -/
theorem C9_record_invariants (p : Panel) (idx : ℕ) (rec : Metrics)
    (h : calculate_metrics_for_date p idx = some rec) :
    rec.above_50 ≤ rec.total ∧ rec.above_100 ≤ rec.total ∧
      rec.above_200 ≤ rec.total ∧
      (0 ≤ rec.pct_above_50 ∧ rec.pct_above_50 ≤ 100) ∧
      (0 ≤ rec.pct_above_100 ∧ rec.pct_above_100 ≤ 100) ∧
      (0 ≤ rec.pct_above_200 ∧ rec.pct_above_200 ≤ 100) := by
  unfold calculate_metrics_for_date at h
  split_ifs at h with h1 h2
  have hrec := (Option.some.injEq _ _).mp h
  subst hrec
  refine ⟨aboveCount_le_totalValid p idx 50, aboveCount_le_totalValid p idx 100,
    aboveCount_le_totalValid p idx 200,
    ⟨pctOf_nonneg _ _, pctOf_le_100 (aboveCount_le_totalValid p idx 50)⟩,
    ⟨pctOf_nonneg _ _, pctOf_le_100 (aboveCount_le_totalValid p idx 100)⟩,
    ⟨pctOf_nonneg _ _, pctOf_le_100 (aboveCount_le_totalValid p idx 200)⟩⟩

set_option maxRecDepth 400000 in
/-- Witness for C9: the invariants hold for the concrete record produced
from the sample panel. -/
theorem C9_record_invariants_witness :
    calculate_metrics_for_date samplePanel 199 = some sampleMetrics ∧
      (sampleMetrics.above_50 ≤ sampleMetrics.total ∧
        sampleMetrics.above_100 ≤ sampleMetrics.total ∧
        sampleMetrics.above_200 ≤ sampleMetrics.total ∧
        (0 ≤ sampleMetrics.pct_above_50 ∧ sampleMetrics.pct_above_50 ≤ 100) ∧
        (0 ≤ sampleMetrics.pct_above_100 ∧ sampleMetrics.pct_above_100 ≤ 100) ∧
        (0 ≤ sampleMetrics.pct_above_200 ∧ sampleMetrics.pct_above_200 ≤ 100)) :=
  ⟨by decide, C9_record_invariants samplePanel 199 sampleMetrics (by decide)⟩

/-- C1: for every panel and valid row index with at least 200 rows up to
and including it and at least one non-missing close there,
`calculate_metrics_for_date` returns a record whose `above_w` is the
number of tickers whose close strictly exceeds the mean of their trailing
`w` closes, whose `total` is the number of tickers with a non-missing
close at the row, and whose percentages are `round(above_w/total*100, 2)`
with the same `total` denominator for all three windows. -/
theorem C1_metrics_match_spec (p : Panel) (idx : ℕ)
    (hidx : idx < p.rows.length) (h200 : 200 ≤ idx + 1)
    (hvalid : 0 < totalValid p idx) :
    ∃ rec, calculate_metrics_for_date p idx = some rec ∧
      rec.total = specTotal p idx ∧
      rec.above_50 = specAboveCount p idx 50 ∧
      rec.above_100 = specAboveCount p idx 100 ∧
      rec.above_200 = specAboveCount p idx 200 ∧
      rec.pct_above_50 = round2 ((rec.above_50 : ℚ) / (rec.total : ℚ) * 100) ∧
      rec.pct_above_100 = round2 ((rec.above_100 : ℚ) / (rec.total : ℚ) * 100) ∧
      rec.pct_above_200 = round2 ((rec.above_200 : ℚ) / (rec.total : ℚ) * 100) := by
  have hlen : (p.rows.take (idx + 1)).length = idx + 1 := take_succ_length_eq _ _ hidx
  have hnot : ¬ ((p.rows.take (idx + 1)).length < 200) := by omega
  have htv : ¬ (totalValid p idx = 0) := by omega
  unfold calculate_metrics_for_date
  rw [if_neg hnot, if_neg htv]
  refine ⟨_, rfl, ?_, ?_, ?_, ?_, rfl, rfl, rfl⟩
  · unfold totalValid specTotal
    apply List.countP_congr
    intro j _
    have hcl : closeAt p idx j = specCloseAt p idx j := by
      unfold closeAt specCloseAt
      rw [lastRow_eq_getD p idx hidx]
    rw [hcl]
  all_goals
    unfold aboveCount specAboveCount
    apply List.countP_congr
    intro j _
    rw [aboveB_eq_specAboveB p idx _ j hidx (by omega)]

set_option maxRecDepth 400000 in
/-- Witness for C1 at the sample panel. -/
theorem C1_metrics_match_spec_witness :
    199 < samplePanel.rows.length ∧ 200 ≤ 199 + 1 ∧ 0 < totalValid samplePanel 199 ∧
      (∃ rec, calculate_metrics_for_date samplePanel 199 = some rec ∧
        rec.total = specTotal samplePanel 199 ∧
        rec.above_50 = specAboveCount samplePanel 199 50 ∧
        rec.above_100 = specAboveCount samplePanel 199 100 ∧
        rec.above_200 = specAboveCount samplePanel 199 200 ∧
        rec.pct_above_50 = round2 ((rec.above_50 : ℚ) / (rec.total : ℚ) * 100) ∧
        rec.pct_above_100 = round2 ((rec.above_100 : ℚ) / (rec.total : ℚ) * 100) ∧
        rec.pct_above_200 = round2 ((rec.above_200 : ℚ) / (rec.total : ℚ) * 100)) :=
  ⟨by decide, by decide, by decide,
    C1_metrics_match_spec samplePanel 199 (by decide) (by decide) (by decide)⟩

/-! Lemmas on the history merge. -/

theorem lookupLast_append (l1 l2 : List HRow) (d : String) :
    lookupLast (l1 ++ l2) d = (lookupLast l2 d).or (lookupLast l1 d) := by
  induction l1 with
  | nil =>
      cases h : lookupLast l2 d <;> simp [lookupLast, Option.or, h]
  | cons r rs ih =>
      show (match lookupLast (rs ++ l2) d with
            | some x => some x
            | none => if r.date = d then some r else none) = _
      rw [ih]
      cases h : lookupLast l2 d <;> simp [lookupLast, Option.or]

theorem lookupLast_some (l : List HRow) (d : String) (x : HRow)
    (h : lookupLast l d = some x) : x ∈ l ∧ x.date = d := by
  induction l with
  | nil => simp [lookupLast] at h
  | cons r rs ih =>
      revert h
      show (match lookupLast rs d with
            | some y => some y
            | none => if r.date = d then some r else none) = some x → _
      cases h2 : lookupLast rs d with
      | some y =>
          intro h
          obtain rfl : y = x := by simpa using h
          obtain ⟨hm, hd⟩ := ih h2
          exact ⟨List.mem_cons_of_mem r hm, hd⟩
      | none =>
          intro h
          by_cases hr : r.date = d
          · rw [if_pos hr] at h
            obtain rfl : r = x := by simpa using h
            exact ⟨List.mem_cons_self r rs, hr⟩
          · rw [if_neg hr] at h
            simp at h

theorem lookupLast_eq_none_iff (l : List HRow) (d : String) :
    lookupLast l d = none ↔ ∀ x ∈ l, x.date ≠ d := by
  induction l with
  | nil => simp [lookupLast]
  | cons r rs ih =>
      show (match lookupLast rs d with
            | some y => some y
            | none => if r.date = d then some r else none) = none ↔ _
      cases h2 : lookupLast rs d with
      | some y =>
          obtain ⟨hm, hd⟩ := lookupLast_some rs d y h2
          simp only [List.mem_cons]
          constructor
          · intro h
            simp at h
          · intro h
            exact absurd hd (h y (Or.inr hm))
      | none =>
          by_cases hr : r.date = d
          · rw [if_pos hr]
            simp only [List.mem_cons]
            constructor
            · intro h
              simp at h
            · intro h
              exact absurd hr (h r (Or.inl rfl))
          · rw [if_neg hr]
            simp only [List.mem_cons]
            constructor
            · intro _ x hx
              rcases hx with rfl | hx
              · exact hr
              · exact (ih.mp h2) x hx
            · intro _
              trivial

theorem mem_dedupLast {x : HRow} : ∀ {l : List HRow}, x ∈ dedupLast l → x ∈ l := by
  intro l
  induction l with
  | nil => simp [dedupLast]
  | cons r rs ih =>
      unfold dedupLast
      split_ifs with hany
      · intro h
        exact List.mem_cons_of_mem r (ih h)
      · intro h
        rcases List.mem_cons.mp h with rfl | h
        · exact List.mem_cons_self _ _
        · exact List.mem_cons_of_mem r (ih h)

theorem dedupLast_pairwise (l : List HRow) :
    (dedupLast l).Pairwise (fun a b => a.date ≠ b.date) := by
  induction l with
  | nil => simp [dedupLast]
  | cons r rs ih =>
      unfold dedupLast
      split_ifs with hany
      · exact ih
      · refine List.Pairwise.cons ?_ ih
        intro b hb
        have hbrs : b ∈ rs := mem_dedupLast hb
        have : ¬ (b.date = r.date) := by
          intro hbd
          exact hany (List.any_eq_true.mpr ⟨b, hbrs, by simp [hbd]⟩)
        exact fun h => this h.symm

theorem lookupLast_dedupLast (l : List HRow) (d : String) :
    lookupLast (dedupLast l) d = lookupLast l d := by
  induction l with
  | nil => rfl
  | cons r rs ih =>
      unfold dedupLast
      split_ifs with hany
      · rw [ih]
        show lookupLast rs d = lookupLast (r :: rs) d
        cases h2 : lookupLast rs d with
        | some y => simp [lookupLast, h2]
        | none =>
            by_cases hr : r.date = d
            · exfalso
              obtain ⟨b, hbrs, hbd⟩ := List.any_eq_true.mp hany
              have hbd2 : b.date = d := by
                simpa [hr] using hbd
              exact ((lookupLast_eq_none_iff rs d).mp h2) b hbrs hbd2
            · simp [lookupLast, h2, hr]
      · show lookupLast (r :: dedupLast rs) d = lookupLast (r :: rs) d
        simp only [lookupLast, ih]

theorem lookupLast_some_of_mem_pairwise {l : List HRow}
    (hp : l.Pairwise (fun a b => a.date ≠ b.date)) {x : HRow} (hm : x ∈ l) :
    lookupLast l x.date = some x := by
  induction l with
  | nil => simp at hm
  | cons r rs ih =>
      show (match lookupLast rs x.date with
            | some y => some y
            | none => if r.date = x.date then some r else none) = some x
      rcases List.mem_cons.mp hm with rfl | hm2
      · have hnone : lookupLast rs x.date = none := by
          rw [lookupLast_eq_none_iff]
          intro y hy
          exact fun hyd => (List.pairwise_cons.mp hp).1 y hy hyd.symm
        rw [hnone, if_pos rfl]
      · have hsome : lookupLast rs x.date = some x :=
          ih (List.pairwise_cons.mp hp).2 hm2
        rw [hsome]

theorem lookupLast_perm {l1 l2 : List HRow} (hperm : l1.Perm l2)
    (hp : l1.Pairwise (fun a b => a.date ≠ b.date)) (d : String) :
    lookupLast l1 d = lookupLast l2 d := by
  have hp2 : l2.Pairwise (fun a b => a.date ≠ b.date) :=
    ((List.Perm.pairwise_iff (fun h => h.symm) hperm)).mp hp
  cases h : lookupLast l1 d with
  | some x =>
      obtain ⟨hm, hd⟩ := lookupLast_some l1 d x h
      have := lookupLast_some_of_mem_pairwise hp2 (hperm.mem_iff.mp hm)
      rw [hd] at this
      exact this.symm
  | none =>
      symm
      rw [lookupLast_eq_none_iff] at h ⊢
      intro x hx
      exact h x (hperm.mem_iff.mpr hx)

theorem mergeRecords_perm_dedup (t r : List HRow) :
    (mergeRecords t r).Perm (dedupLast (t ++ r)) :=
  List.mergeSort_perm _ _

theorem mergeRecords_pairwise_ne (t r : List HRow) :
    (mergeRecords t r).Pairwise (fun a b => a.date ≠ b.date) :=
  ((List.Perm.pairwise_iff (fun h => h.symm) (mergeRecords_perm_dedup t r))).mpr
    (dedupLast_pairwise _)

theorem mergeRecords_sorted (t r : List HRow) :
    (mergeRecords t r).Pairwise (fun a b => a.date ≤ b.date) := by
  have h := @List.sorted_mergeSort HRow (fun a b : HRow => decide (a.date ≤ b.date))
    (fun a b c hab hbc => by
      simp only [decide_eq_true_eq] at hab hbc ⊢
      exact le_trans hab hbc)
    (fun a b => by
      simp only [Bool.or_eq_true, decide_eq_true_eq]
      exact le_total a.date b.date)
    (dedupLast (t ++ r))
  exact h.imp (fun hab => by simpa using hab)

theorem mergeRecords_pairwise_lt (t r : List HRow) :
    (mergeRecords t r).Pairwise (fun a b => a.date < b.date) :=
  ((mergeRecords_sorted t r).and (mergeRecords_pairwise_ne t r)).imp
    (fun hab => lt_of_le_of_ne hab.1 hab.2)

theorem lookupLast_mergeRecords (t r : List HRow) (d : String) :
    lookupLast (mergeRecords t r) d = (lookupLast r d).or (lookupLast t d) := by
  rw [lookupLast_perm (mergeRecords_perm_dedup t r) (mergeRecords_pairwise_ne t r) d,
    lookupLast_dedupLast, lookupLast_append]

theorem lookupLast_cons_of_ne (a : HRow) (l : List HRow) (d : String)
    (hne : a.date ≠ d) : lookupLast (a :: l) d = lookupLast l d := by
  show (match lookupLast l d with
        | some y => some y
        | none => if a.date = d then some a else none) = lookupLast l d
  cases lookupLast l d with
  | some y => rfl
  | none => rw [if_neg hne]

theorem eq_of_sorted_unique : ∀ (l1 l2 : List HRow),
    l1.Pairwise (fun a b => a.date < b.date) →
    l2.Pairwise (fun a b => a.date < b.date) →
    (∀ d, lookupLast l1 d = lookupLast l2 d) → l1 = l2 := by
  intro l1
  induction l1 with
  | nil =>
      intro l2 _ h2 hl
      cases l2 with
      | nil => rfl
      | cons b l2 =>
          exfalso
          have hb : lookupLast (b :: l2) b.date = some b :=
            lookupLast_some_of_mem_pairwise
              (h2.imp (fun hab => ne_of_lt hab)) (List.mem_cons_self b l2)
          have h := (hl b.date).symm
          rw [hb] at h
          simp [lookupLast] at h
  | cons a l1 ih =>
      intro l2 h1 h2 hl
      cases l2 with
      | nil =>
          exfalso
          have ha : lookupLast (a :: l1) a.date = some a :=
            lookupLast_some_of_mem_pairwise
              (h1.imp (fun hab => ne_of_lt hab)) (List.mem_cons_self a l1)
          have h := hl a.date
          rw [ha] at h
          simp [lookupLast] at h
      | cons b l2 =>
          have ha : lookupLast (a :: l1) a.date = some a :=
            lookupLast_some_of_mem_pairwise
              (h1.imp (fun hab => ne_of_lt hab)) (List.mem_cons_self a l1)
          have hb : lookupLast (b :: l2) b.date = some b :=
            lookupLast_some_of_mem_pairwise
              (h2.imp (fun hab => ne_of_lt hab)) (List.mem_cons_self b l2)
          have hab : a = b := by
            rcases lt_trichotomy a.date b.date with hlt | heq | hgt
            · exfalso
              have hnone : lookupLast (b :: l2) a.date = none := by
                rw [lookupLast_eq_none_iff]
                intro x hx
                rcases List.mem_cons.mp hx with rfl | hx2
                · exact ne_of_gt hlt
                · exact ne_of_gt (lt_trans hlt ((List.pairwise_cons.mp h2).1 x hx2))
              have h := hl a.date
              rw [ha, hnone] at h
              simp at h
            · have h := hl a.date
              rw [ha, heq, hb] at h
              exact (Option.some.inj h).symm ▸ rfl
            · exfalso
              have hnone : lookupLast (a :: l1) b.date = none := by
                rw [lookupLast_eq_none_iff]
                intro x hx
                rcases List.mem_cons.mp hx with rfl | hx2
                · exact ne_of_gt hgt
                · exact ne_of_gt (lt_trans hgt ((List.pairwise_cons.mp h1).1 x hx2))
              have h := hl b.date
              rw [hb, hnone] at h
              simp at h
          subst hab
          have htl : l1 = l2 := by
            apply ih l2 (List.pairwise_cons.mp h1).2 (List.pairwise_cons.mp h2).2
            intro d
            by_cases hd : a.date = d
            · subst hd
              have e1 : lookupLast l1 a.date = none := by
                rw [lookupLast_eq_none_iff]
                intro x hx
                exact ne_of_gt ((List.pairwise_cons.mp h1).1 x hx)
              have e2 : lookupLast l2 a.date = none := by
                rw [lookupLast_eq_none_iff]
                intro x hx
                exact ne_of_gt ((List.pairwise_cons.mp h2).1 x hx)
              rw [e1, e2]
            · have e1 := lookupLast_cons_of_ne a l1 d hd
              have e2 := lookupLast_cons_of_ne a l2 d hd
              rw [← e1, ← e2]
              exact hl d
          rw [htl]

/-- C3: for every panel, valid index pair and window in {50, 100, 200},
`detect_crossovers` produces, per window, exactly one bullish event for
each ticker whose price was strictly below its trailing window-SMA on the
previous row and strictly above on the current row, exactly one bearish
event for each ticker strictly above then strictly below, and nothing for
any other combination (equality or a missing value on either day);
tickers are processed independently in panel column order. -/
theorem C3_crossover_classification (p : Panel) (iprev icurr : ℕ)
    (hlt : iprev < icurr) (hcurr : icurr < p.rows.length) :
    detect_crossovers p (iprev : ℤ) (icurr : ℤ) [50, 100, 200] =
      some ([50, 100, 200].map (fun w => (w, specBuckets p iprev icurr w))) :=
  detect_eq_spec p iprev icurr hlt hcurr

set_option maxRecDepth 400000 in
/-- Witness for C3 at the concrete 51-row panel. -/
theorem C3_crossover_classification_witness :
    49 < 50 ∧ 50 < crossPanel.rows.length ∧
      detect_crossovers crossPanel (49 : ℕ) (50 : ℕ) [50, 100, 200] =
        some ([50, 100, 200].map (fun w => (w, specBuckets crossPanel 49 50 w))) :=
  ⟨by decide, by decide, C3_crossover_classification crossPanel 49 50 (by decide) (by decide)⟩

set_option maxRecDepth 400000 in
/-- Counterexample to C4: the pair `(prev, curr) = (50, 49)` violates the
precondition `prev < curr`, yet `detect_crossovers` does not return the
all-empty result: it emits a bullish SMA-50 event computed backwards in
time. -/
theorem C4_counterexample :
    ¬ ((50 : ℤ) < 49) ∧
      detect_crossovers crossPanel 50 49 [50, 100, 200] =
        some [(50, { bullish := [{ ticker := "AAA", close := 200, sma_value := 102 }],
                     bearish := [] }),
              (100, emptyBuckets), (200, emptyBuckets)] ∧
      detect_crossovers crossPanel 50 49 [50, 100, 200] ≠
        some ([50, 100, 200].map (fun w => (w, emptyBuckets))) :=
  ⟨by decide, by decide, by decide⟩

/-- C4 amended: the code only guards `prev_date_idx < 0` and
`curr_date_idx >= len(price_data)`; whenever that guard fires,
`detect_crossovers` returns a result mapping every requested window to
empty bullish and bearish lists and does not fail.  (Pairs with
`prev_index ≥ curr_index` that stay inside the row range are processed
normally and can emit events.) -/
theorem C4_guard_empty (p : Panel) (prev curr : ℤ) (periods : List ℕ)
    (h : prev < 0 ∨ (p.rows.length : ℤ) ≤ curr) :
    detect_crossovers p prev curr periods =
      some (periods.map (fun w => (w, emptyBuckets))) := by
  unfold detect_crossovers
  rw [if_pos h]

/-- Witness for the amended C4 at a concrete out-of-range pair. -/
theorem C4_guard_empty_witness :
    ((-1 : ℤ) < 0 ∨ (crossPanel.rows.length : ℤ) ≤ 0) ∧
      detect_crossovers crossPanel (-1) 0 [50, 100, 200] =
        some ([50, 100, 200].map (fun w => (w, emptyBuckets))) :=
  ⟨Or.inl (by norm_num),
    C4_guard_empty crossPanel (-1) 0 [50, 100, 200] (Or.inl (by norm_num))⟩

/-- C5: the history merge is an idempotent upsert keyed on date: merging
the same batch twice equals merging it once; the merged table is sorted
strictly ascending by date (hence duplicate-free); and the record stored
under each date is the batch's last record for that date when one exists
(last-write-wins), otherwise the existing table's record. -/
theorem C5_history_merge_upsert (t r : List HRow) :
    mergeRecords (mergeRecords t r) r = mergeRecords t r ∧
      (mergeRecords t r).Pairwise (fun a b => a.date < b.date) ∧
      ∀ d, lookupLast (mergeRecords t r) d =
        (lookupLast r d).or (lookupLast t d) := by
  refine ⟨?_, mergeRecords_pairwise_lt t r, lookupLast_mergeRecords t r⟩
  apply eq_of_sorted_unique _ _ (mergeRecords_pairwise_lt _ _)
    (mergeRecords_pairwise_lt _ _)
  intro d
  rw [lookupLast_mergeRecords, lookupLast_mergeRecords]
  cases lookupLast r d <;> rfl

/-- Counterexample to C6: with an unparseable history file on disk,
`update_history_file` returns normally with an empty table and the stored
file untouched — no `CorruptHistory` error propagates and the run is not
failed. -/
theorem C6_counterexample :
    update_history_file Stored.corrupt [sampleHRow] =
      (Except.ok [], Stored.corrupt) :=
  rfl

/-- C6 amended: when the persisted history table cannot be parsed,
`update_history_file` catches the error inside its `try/except`, returns
an empty table, and leaves the stored file unchanged; no error reaches
the caller. -/
theorem C6_corrupt_swallowed (new : List HRow) :
    (update_history_file Stored.corrupt new).1 = Except.ok [] ∧
      (update_history_file Stored.corrupt new).2 = Stored.corrupt :=
  ⟨rfl, rfl⟩

/-- C10: whenever loading the persisted history fails, the function
catches the error, returns an empty table, leaves the stored history
unchanged, and never propagates an exception to its caller. -/
theorem C10_update_history_never_throws (new : List HRow) :
    update_history_file Stored.corrupt new = (Except.ok [], Stored.corrupt) :=
  rfl

/-! Lemmas on the crossover log. -/

theorem lookupKey_cons_of_ne (x : String × CrossEntry)
    (xs : List (String × CrossEntry)) (d : String) (hx : ¬ x.1 = d) :
    lookupKey (x :: xs) d = lookupKey xs d := by
  unfold lookupKey
  have hfind : List.find? (fun y => decide (y.1 = d)) (x :: xs) =
      List.find? (fun y => decide (y.1 = d)) xs :=
    @List.find?_cons_of_neg _ (fun y => decide (y.1 = d)) x xs (by simpa using hx)
  rw [hfind]

theorem lookupKey_cons_of_eq (x : String × CrossEntry)
    (xs : List (String × CrossEntry)) (d : String) (hx : x.1 = d) :
    lookupKey (x :: xs) d = some x.2 := by
  unfold lookupKey
  have hfind : List.find? (fun y => decide (y.1 = d)) (x :: xs) = some x :=
    @List.find?_cons_of_pos _ (fun y => decide (y.1 = d)) x xs (by simpa using hx)
  rw [hfind]
  rfl

theorem lookupKey_map_set_self (log : List (String × CrossEntry)) (d : String)
    (e : CrossEntry) :
    lookupKey (log.map (fun x => if x.1 = d then (d, e) else x)) d =
      if log.any (fun x => x.1 = d) then some e else none := by
  induction log with
  | nil => simp [lookupKey]
  | cons x xs ih =>
      by_cases hx : x.1 = d
      · rw [List.map_cons, if_pos hx,
          lookupKey_cons_of_eq (d, e) _ d (by simp)]
        simp [hx]
      · rw [List.map_cons, if_neg hx, lookupKey_cons_of_ne x _ d hx, ih]
        have hdec : decide (x.1 = d) = false := by
          simp [hx]
        rw [List.any_cons, hdec, Bool.false_or]

theorem lookupKey_setKey_self (log : List (String × CrossEntry)) (d : String)
    (e : CrossEntry) : lookupKey (setKey log d e) d = some e := by
  unfold setKey
  split_ifs with hany
  · rw [lookupKey_map_set_self, if_pos hany]
  · unfold lookupKey
    rw [List.find?_append]
    have hnone : (log.find? fun x => x.1 = d) = none := by
      rw [List.find?_eq_none]
      intro x hx hpx
      exact hany (List.any_eq_true.mpr ⟨x, hx, hpx⟩)
    rw [hnone]
    simp

theorem lookupKey_map_set_ne (log : List (String × CrossEntry)) (d d2 : String)
    (e : CrossEntry) (hne : d2 ≠ d) :
    lookupKey (log.map (fun x => if x.1 = d then (d, e) else x)) d2 =
      lookupKey log d2 := by
  induction log with
  | nil => rfl
  | cons x xs ih =>
      by_cases hx : x.1 = d
      · have h1 : ¬ (((d, e) : String × CrossEntry).1 = d2) :=
          fun h => hne ((show d = d2 from h).symm)
        have h2 : ¬ (x.1 = d2) := by
          rw [hx]
          exact fun h => hne h.symm
        rw [List.map_cons, if_pos hx, lookupKey_cons_of_ne (d, e) _ d2 h1,
          lookupKey_cons_of_ne x xs d2 h2]
        exact ih
      · by_cases hx2 : x.1 = d2
        · rw [List.map_cons, if_neg hx, lookupKey_cons_of_eq x _ d2 hx2,
            lookupKey_cons_of_eq x xs d2 hx2]
        · rw [List.map_cons, if_neg hx, lookupKey_cons_of_ne x _ d2 hx2,
            lookupKey_cons_of_ne x xs d2 hx2]
          exact ih

theorem lookupKey_setKey_ne (log : List (String × CrossEntry)) (d d2 : String)
    (e : CrossEntry) (hne : d2 ≠ d) :
    lookupKey (setKey log d e) d2 = lookupKey log d2 := by
  unfold setKey
  split_ifs with hany
  · exact lookupKey_map_set_ne log d d2 e hne
  · unfold lookupKey
    rw [List.find?_append]
    have h1 : ([(d, e)].find? fun x => decide (x.1 = d2)) = none := by
      rw [List.find?_eq_none]
      intro x hx hpx
      rcases List.mem_singleton.mp hx with rfl
      have hd : d = d2 := by simpa using hpx
      exact hne hd.symm
    rw [h1]
    cases log.find? fun x => decide (x.1 = d2) <;> rfl

/-- C7: appending the crossover entry for a date writes exactly that key:
the new log holds the fresh `{sp500, nasdaq}` entry under the date, every
other date's stored entry is unchanged from the loaded log (absent or
unparseable logs load as empty), and the entry just written is returned. -/
theorem C7_crossover_log_frame (prior : CrossStored) (sp nas : List (ℕ × Buckets))
    (d : String) :
    (save_crossover_history prior sp nas d).2 = { sp500 := sp, nasdaq := nas } ∧
      lookupKey (save_crossover_history prior sp nas d).1 d =
        some { sp500 := sp, nasdaq := nas } ∧
      ∀ d2, d2 ≠ d →
        lookupKey (save_crossover_history prior sp nas d).1 d2 =
          lookupKey (loadCrossoverLog prior) d2 :=
  ⟨rfl, lookupKey_setKey_self _ _ _,
    fun _ hne => lookupKey_setKey_ne _ _ _ _ hne⟩

/-- Witness for C7 on a concrete prior log and dates. -/
theorem C7_crossover_log_frame_witness :
    (save_crossover_history (CrossStored.log [("2024-01-01", sampleEntry)])
        [] [] "2024-01-02").2 = { sp500 := [], nasdaq := [] } ∧
      lookupKey (save_crossover_history
          (CrossStored.log [("2024-01-01", sampleEntry)]) [] [] "2024-01-02").1
          "2024-01-02" = some { sp500 := [], nasdaq := [] } ∧
      lookupKey (save_crossover_history
          (CrossStored.log [("2024-01-01", sampleEntry)]) [] [] "2024-01-02").1
          "2024-01-01" =
        lookupKey (loadCrossoverLog
          (CrossStored.log [("2024-01-01", sampleEntry)])) "2024-01-01" := by
  obtain ⟨h1, h2, h3⟩ := C7_crossover_log_frame
    (CrossStored.log [("2024-01-01", sampleEntry)]) [] [] "2024-01-02"
  exact ⟨h1, h2, h3 "2024-01-01" (by decide)⟩

set_option maxRecDepth 1000000 in
/-- Counterexample to C8: on business day 200 the Nasdaq panel's nearest
row sits 301 calendar days away, yet the day is not skipped: a record is
produced, because only the S&P 500 distance is checked by the code. -/
theorem C8_counterexample :
    nearestIdx nasPanelFar.dates 200 = some 199 ∧
      3 < |nasPanelFar.dates.getD 199 0 - 200| ∧
      (backfillDay samplePanel nasPanelFar 200 "2024-01-01").isSome = true :=
  ⟨by decide, by decide, by decide⟩

/-- C8 amended: only the S&P 500 panel's nearest-row distance is checked;
whenever that nearest row lies more than 3 calendar days from the
business day, the day is skipped and no record is emitted.  (A Nasdaq
gap alone does not cause a skip, per the counterexample.) -/
theorem C8_sp_gap_skips (sp nas : Panel) (d : ℤ) (ds : String) (i : ℕ)
    (hn : nearestIdx sp.dates d = some i)
    (hgap : 3 < |sp.dates.getD i 0 - d|) :
    backfillDay sp nas d ds = none := by
  unfold backfillDay
  rw [hn]
  cases nearestIdx nas.dates d with
  | none => rfl
  | some j => exact if_pos hgap

/-- Witness for the amended C8 at a concrete gapped panel. -/
theorem C8_sp_gap_skips_witness :
    nearestIdx gapPanel.dates 0 = some 0 ∧
      3 < |gapPanel.dates.getD 0 0 - 0| ∧
      backfillDay gapPanel gapPanel 0 "1970-01-01" = none :=
  ⟨by decide, by decide,
    C8_sp_gap_skips gapPanel gapPanel 0 "1970-01-01" 0 (by decide) (by decide)⟩

end

end MarketBreadth
